/-
Verification of the Monaco Archive Tool
(`lib/pymedphys/_experimental/streamlit/apps/monaco_archive.py`).

The tool scans a clinic root for patient directories, computes a
"weeks since touched" staleness value per directory, filters the
directories whose staleness exceeds a retention threshold, gates a
batch move into a holding directory behind three preconditions, and
later verifies that the moved directories ended up in the final
archive.

Shallow embedding: filesystem paths are lists of name components; the
filesystem is an abstract structure giving, for any path, its direct
children (the result of `glob("*")`, in glob order, empty for a path
that does not exist) and its modification time (a rational number of
seconds).  Python `float` timestamps are modelled as rationals,
numpy reductions as list folds, Python exceptions as `Except.error`,
and the insertion-ordered Python `dict` as an association list with an
insert-or-overwrite operation.
-/
import Mathlib

set_option linter.unusedVariables false

deriving instance DecidableEq for Except

namespace MonacoArchive

/-- A filesystem path, as the list of its name components.
`p.joinpath(name)` in the source is `p ++ [name]`. -/
abbrev Path := List String

/-- `directory.name` in the source: the final component of a path. -/
def Path.name (p : Path) : String := p.getLast?.getD ""

/-- The abstract filesystem the app reads.  `children p` is the list
produced by `p.glob("*")` (empty when `p` does not exist, which is how
`pathlib` behaves on a missing directory), and `mtime p` is
`os.path.getmtime(p)` as a rational number of seconds. -/
structure FS where
  children : Path → List Path
  mtime : Path → ℚ

/-! ### `_patient_directory_sort_key` (source lines 215-217)

`prepended_number, patient_id = patient_directory_name.split("~")`
followed by `f"{patient_id}.{prepended_number.zfill(6)}"`.
`str.split("~")` is modelled character-by-character; the tuple
unpacking raises `ValueError` unless the split produced exactly two
parts. -/

/-- Python `s.split("~")`: cut the character list at every `'~'`;
always returns at least one (possibly empty) part. -/
def splitOnTilde : List Char → List (List Char)
  | [] => [[]]
  | c :: rest =>
    if c = '~' then [] :: splitOnTilde rest
    else
      match splitOnTilde rest with
      | [] => [[c]]
      | part :: parts => (c :: part) :: parts

/-- Python `str.zfill(width)` on a character list: left-pad with `'0'`
up to `width`, keeping a leading sign character in front of the
padding. -/
def zfillChars (l : List Char) (width : Nat) : List Char :=
  if width ≤ l.length then l
  else
    match l with
    | [] => List.replicate width '0'
    | c :: rest =>
      if c = '+' ∨ c = '-' then
        c :: (List.replicate (width - l.length) '0' ++ rest)
      else
        List.replicate (width - l.length) '0' ++ (c :: rest)

/-- Python `str.zfill` on strings. -/
def zfill (s : String) (width : Nat) : String :=
  String.mk (zfillChars s.data width)

/-- Source `_patient_directory_sort_key`: split the name on `"~"`,
unpack into `prepended_number` and `patient_id` (a `ValueError` unless
the split has exactly two parts), and return
`f"{patient_id}.{prepended_number.zfill(6)}"`. -/
def _patient_directory_sort_key (patient_directory_name : String) :
    Except String String :=
  match splitOnTilde patient_directory_name.data with
  | [prepended_number, patient_id] =>
    .ok (String.mk patient_id ++ "." ++ String.mk (zfillChars prepended_number 6))
  | _ => .error "ValueError: unpacking requires exactly two values"

/-! ### `_weeks_since_touched` (source lines 225-248) -/

/-- The paths checked for one patient directory (source lines 236-238):
`list(d.glob("*")) + list(d.joinpath("plan").glob("*"))`. -/
def gatherPaths (fs : FS) (d : Path) : List Path :=
  fs.children d ++ fs.children (d ++ ["plan"])

/-- `np.min` over a list: raises on an empty array, otherwise folds
`min` over the elements. -/
def npMin : List ℚ → Except String ℚ
  | [] => .error "ValueError: zero-size array to reduction operation minimum which has no identity"
  | x :: xs => .ok (xs.foldl min x)

/-- The staleness of one directory: gather the paths, take each
modification time, form `(now - modified_time) / (60 * 60 * 24 * 7)`
elementwise, and take the minimum (source lines 239-242). -/
def dirWeeks (fs : FS) (now : ℚ) (d : Path) : Except String ℚ :=
  npMin (((gatherPaths fs d).map fs.mtime).map
    (fun modified => (now - modified) / (60 * 60 * 24 * 7)))

/-- Python `dict` insertion on an association list: overwrite in place
when the key is present, append at the end otherwise. -/
def dictInsert (k : Path) (v : ℚ) : List (Path × ℚ) → List (Path × ℚ)
  | [] => [(k, v)]
  | (k', v') :: rest =>
    if k' = k then (k', v) :: rest else (k', v') :: dictInsert k v rest

/-- The loop of `_weeks_since_touched`: process each directory in
order, recording `weeks_sinces_touched[d] = minimum`; a raised
`ValueError` aborts the whole computation. -/
def weeksSinceTouchedLoop (fs : FS) (now : ℚ) :
    List Path → List (Path × ℚ) → Except String (List (Path × ℚ))
  | [], acc => .ok acc
  | d :: rest, acc =>
    match dirWeeks fs now d with
    | .error e => .error e
    | .ok w => weeksSinceTouchedLoop fs now rest (dictInsert d w acc)

/-- Source `_weeks_since_touched`: the staleness mapping, built
directory by directory starting from the empty dict.  The progress
bar and status indicator are display-only and not modelled. -/
def _weeks_since_touched (fs : FS) (now : ℚ) (patient_directories : List Path) :
    Except String (List (Path × ℚ)) :=
  weeksSinceTouchedLoop fs now patient_directories []

/-! ### `_determine_directories_to_archive` (source lines 251-258) -/

/-- Source `_determine_directories_to_archive`: iterate the staleness
dict in insertion order and keep every directory with
`weeks > weeks_to_keep`. -/
def _determine_directories_to_archive :
    List (Path × ℚ) → ℚ → List Path
  | [], _ => []
  | (directory, weeks) :: rest, weeks_to_keep =>
    if weeks > weeks_to_keep then
      directory :: _determine_directories_to_archive rest weeks_to_keep
    else
      _determine_directories_to_archive rest weeks_to_keep

/-! ### The move gate in `main` (source lines 139-197)

`allow_move_button` starts `True`; the loop over
`directories_to_archive` warns when a source is missing and sets
`allow_move_button = False` on every iteration (the assignment sits at
the loop-body level, outside the `if`); the loop over
`testing_final_locations` warns when a destination exists and likewise
sets `allow_move_button = False` on every iteration; finally a
non-empty holding directory sets it `False` (this time inside the
`if`).  `ex` plays the role of `pathlib.Path.exists`. -/

/-- `testing_final_locations`: `destination.joinpath(name)` for each
selected directory name (source lines 139-141). -/
def testingFinalLocations (destination : Path) (directories_to_archive : List Path) :
    List Path :=
  (directories_to_archive.map Path.name).map (fun name => destination ++ [name])

/-- The value of `allow_move_button` after the three checks in `main`
(source lines 143-192), as the code is written. -/
def allowMoveButton (ex : Path → Bool) (directories_to_archive : List Path)
    (destination : Path) (holding_directory_contents : List Path) : Bool :=
  let allow₁ := directories_to_archive.foldl
    (fun (allow : Bool) directory => false) true
  let allow₂ := (testingFinalLocations destination directories_to_archive).foldl
    (fun (allow : Bool) directory => false) allow₁
  if holding_directory_contents.length ≠ 0 then false else allow₂

/-- The three move-batch preconditions as the spec states them: every
source exists, no final destination exists, the holding root is
empty. -/
def movePreconditionsHold (ex : Path → Bool) (directories_to_archive : List Path)
    (destination : Path) (holding_directory_contents : List Path) : Bool :=
  directories_to_archive.all ex
    && (testingFinalLocations destination directories_to_archive).all
        (fun final => !(ex final))
    && holding_directory_contents.isEmpty

/-! ### The "Test moves" action in `main` (source lines 199-212) -/

/-- The verification loop body: walk
`zip(directories_to_archive, testing_final_locations)` collecting the
sources still present (`directories_left_behind`) and the final
destinations absent from the archive (`directories_not_in_archive`). -/
def testMovesLoop (ex : Path → Bool) :
    List (Path × Path) → List Path × List Path
  | [] => ([], [])
  | (from_dir, to_dir) :: rest =>
    let (left_behind, not_in_archive) := testMovesLoop ex rest
    ((if ex from_dir then from_dir :: left_behind else left_behind),
     (if !(ex to_dir) then to_dir :: not_in_archive else not_in_archive))

/-- The "Test moves" action: the two per-item failure lists and the
overall success flag (success iff both lists are empty). -/
def testMoves (ex : Path → Bool) (directories_to_archive : List Path)
    (destination : Path) : List Path × List Path × Bool :=
  let (left_behind, not_in_archive) :=
    testMovesLoop ex
      (directories_to_archive.zip (testingFinalLocations destination directories_to_archive))
  (left_behind, not_in_archive, left_behind.isEmpty && not_in_archive.isEmpty)

/-! ### Auxiliary notions used only to state properties -/

/-- Python string comparison (`<` on `str`): lexicographic order on
the code-point sequences, used by `sorted` on the sort keys. -/
def strLt (a b : String) : Prop := a.data < b.data

instance (a b : String) : Decidable (strLt a b) := by
  unfold strLt; infer_instance

/-- The largest staleness value occurring in a (non-empty) staleness
mapping; `0` for the empty mapping. -/
def valuesMax : List (Path × ℚ) → ℚ
  | [] => 0
  | (_, w) :: rest => rest.foldl (fun acc p => max acc p.2) w

/-! ### Concrete fixtures used by witnesses and counterexamples -/

/-- A clinic with a single patient directory `clinic/001~A` holding
three children modified 1, 3 and 10 weeks before time `12096000`
(20 weeks), and no `plan` subdirectory. -/
def fsThreeChildren : FS where
  children := fun p =>
    if p = ["clinic", "001~A"] then
      [["clinic", "001~A", "x"], ["clinic", "001~A", "y"], ["clinic", "001~A", "z"]]
    else []
  mtime := fun p =>
    if p = ["clinic", "001~A", "x"] then 12096000 - 604800
    else if p = ["clinic", "001~A", "y"] then 12096000 - 3 * 604800
    else if p = ["clinic", "001~A", "z"] then 12096000 - 10 * 604800
    else 0

/-- A clinic with a single patient directory `clinic/001~A` holding
one child whose modification time lies one week in the future of the
clock time `0`. -/
def fsFuture : FS where
  children := fun p =>
    if p = ["clinic", "001~A"] then [["clinic", "001~A", "x"]] else []
  mtime := fun _ => 604800

/-- A clinic in which every directory is empty. -/
def fsEmpty : FS where
  children := fun _ => []
  mtime := fun _ => 0

/-- Existence test for a filesystem in which exactly the source
directory `clinic/001~A` exists: its final destination `dest/001~A`
does not exist and the holding area is empty. -/
def exOnlySource : Path → Bool := fun p => p = ["clinic", "001~A"]

/-- Existence test after a successful archive of `005~ABC`: only the
final destination `dest/005~ABC` exists. -/
def exArchived : Path → Bool := fun p => p = ["dest", "005~ABC"]

/-! ## Helper lemmas -/

/-- `foldl max` dominates its seed and every list element. -/
lemma foldl_max_ge (l : List (Path × ℚ)) :
    ∀ a : ℚ, a ≤ l.foldl (fun acc p => max acc p.2) a
      ∧ ∀ p ∈ l, p.2 ≤ l.foldl (fun acc p => max acc p.2) a := by
  induction l with
  | nil => intro a; exact ⟨le_refl a, by simp⟩
  | cons x xs ih =>
    intro a
    obtain ⟨hseed, hmem⟩ := ih (max a x.2)
    refine ⟨le_trans (le_max_left a x.2) hseed, ?_⟩
    intro p hp
    rcases List.mem_cons.mp hp with rfl | hp'
    · exact le_trans (le_max_right a p.2) hseed
    · exact hmem p hp'

/-- Every value in a staleness mapping is at most `valuesMax`. -/
lemma le_valuesMax (m : List (Path × ℚ)) : ∀ p ∈ m, p.2 ≤ valuesMax m := by
  intro p hp
  cases m with
  | nil => cases hp
  | cons x xs =>
    rcases List.mem_cons.mp hp with rfl | hp'
    · exact (foldl_max_ge xs p.2).1
    · exact (foldl_max_ge xs x.2).2 p hp'

/-- The selection loop is the insertion-order filter of the mapping. -/
lemma determine_eq_filter (m : List (Path × ℚ)) (T : ℚ) :
    _determine_directories_to_archive m T
      = (m.filter (fun p => decide (T < p.2))).map Prod.fst := by
  induction m with
  | nil => rfl
  | cons x xs ih =>
    obtain ⟨d, w⟩ := x
    by_cases h : w > T
    · simp [_determine_directories_to_archive, h, List.filter_cons, ih]
    · simp [_determine_directories_to_archive, h, List.filter_cons, ih]

/-! ## Claims -/

/-- C2: for every staleness mapping and every threshold `T ≥ 0`, the
archival selection is exactly the insertion-ordered sublist of
directories whose staleness strictly exceeds `T` (so a directory whose
staleness equals `T` is kept); a directory is selected iff some entry
for it has staleness above `T`; with `T = 0` the selection is the
directories of positive staleness, and with `T` the maximum staleness
the selection is empty. -/
theorem directories_to_archive_selection_spec (m : List (Path × ℚ)) (T : ℚ)
    (hT : 0 ≤ T) :
    _determine_directories_to_archive m T
        = (m.filter (fun p => decide (T < p.2))).map Prod.fst
    ∧ (∀ d : Path, d ∈ _determine_directories_to_archive m T
        ↔ ∃ w, (d, w) ∈ m ∧ w > T)
    ∧ _determine_directories_to_archive m 0
        = (m.filter (fun p => decide ((0 : ℚ) < p.2))).map Prod.fst
    ∧ (m ≠ [] → _determine_directories_to_archive m (valuesMax m) = []) := by
  refine ⟨determine_eq_filter m T, ?_, determine_eq_filter m 0, ?_⟩
  · intro d
    rw [determine_eq_filter m T]
    simp only [List.mem_map, List.mem_filter, decide_eq_true_eq, gt_iff_lt]
    constructor
    · rintro ⟨⟨d', w⟩, ⟨hmem, hw⟩, rfl⟩
      exact ⟨w, hmem, hw⟩
    · rintro ⟨w, hmem, hw⟩
      exact ⟨(d, w), ⟨hmem, hw⟩, rfl⟩
  · intro _
    rw [determine_eq_filter]
    have : m.filter (fun p => decide (valuesMax m < p.2)) = [] := by
      apply List.filter_eq_nil_iff.mpr
      intro p hp
      simp only [decide_eq_true_eq]
      exact not_lt.mpr (le_valuesMax m p hp)
    rw [this]
    rfl

/-- C2 witness: on the one-entry mapping `{clinic/001~A ↦ 2}` with
threshold `1` the selection is that single directory, and with the
maximum staleness as threshold it is empty. -/
theorem directories_to_archive_selection_spec_witness :
    _determine_directories_to_archive [(["clinic", "001~A"], (2 : ℚ))] 1
      = [["clinic", "001~A"]]
    ∧ _determine_directories_to_archive [(["clinic", "001~A"], (2 : ℚ))]
        (valuesMax [(["clinic", "001~A"], (2 : ℚ))]) = [] := by
  have h := directories_to_archive_selection_spec
    [(["clinic", "001~A"], (2 : ℚ))] 1 (by norm_num)
  refine ⟨?_, h.2.2.2 (by simp)⟩
  rw [h.1]
  norm_num

/-- C9: archival selection is a pure deterministic function: two
invocations on identical staleness mappings and identical thresholds
return identical (identically ordered) lists. -/
theorem directories_to_archive_deterministic
    (m₁ m₂ : List (Path × ℚ)) (t₁ t₂ : ℚ) (hm : m₁ = m₂) (ht : t₁ = t₂) :
    _determine_directories_to_archive m₁ t₁
      = _determine_directories_to_archive m₂ t₂ := by
  rw [hm, ht]

/-- C9 witness: determinism instantiated on a concrete mapping and
threshold. -/
theorem directories_to_archive_deterministic_witness :
    _determine_directories_to_archive [(["clinic", "001~A"], (2 : ℚ))] 1
      = _determine_directories_to_archive [(["clinic", "001~A"], (2 : ℚ))] 1 :=
  directories_to_archive_deterministic
    [(["clinic", "001~A"], (2 : ℚ))] [(["clinic", "001~A"], (2 : ℚ))] 1 1 rfl rfl

/-- The split of a tilde-free character list is the single part. -/
lemma splitOnTilde_no_tilde : ∀ l : List Char, '~' ∉ l → splitOnTilde l = [l] := by
  intro l
  induction l with
  | nil => intro _; rfl
  | cons c rest ih =>
    intro h
    have hc : ¬ c = '~' := fun hc => h (hc ▸ List.mem_cons_self c rest)
    have hrest : '~' ∉ rest := fun hr => h (List.mem_cons_of_mem c hr)
    simp only [splitOnTilde, if_neg hc, ih hrest]

/-- Splitting `l ++ '~' :: r` for tilde-free `l` peels off `l` as the
first part. -/
lemma splitOnTilde_append :
    ∀ l r : List Char, '~' ∉ l →
      splitOnTilde (l ++ '~' :: r) = l :: splitOnTilde r := by
  intro l
  induction l with
  | nil => intro r _; simp [splitOnTilde]
  | cons c rest ih =>
    intro r h
    have hc : ¬ c = '~' := fun hc => h (hc ▸ List.mem_cons_self c rest)
    have hrest : '~' ∉ rest := fun hr => h (List.mem_cons_of_mem c hr)
    simp only [List.cons_append, splitOnTilde, if_neg hc]
    rw [show rest.append ('~' :: r) = rest ++ ('~' :: r) from rfl, ih r hrest]

/-- The split always has one more part than the number of tildes. -/
lemma splitOnTilde_length :
    ∀ l : List Char, (splitOnTilde l).length = l.count '~' + 1 := by
  intro l
  induction l with
  | nil => rfl
  | cons c rest ih =>
    by_cases hc : c = '~'
    · subst hc
      simp [splitOnTilde, ih, List.count_cons]
    · have hne : splitOnTilde rest ≠ [] := by
        intro hnil
        have := ih
        rw [hnil] at this
        simp at this
      simp only [splitOnTilde, if_neg hc]
      cases hsplit : splitOnTilde rest with
      | nil => exact absurd hsplit hne
      | cons p ps =>
        rw [hsplit] at ih
        simp only [List.length_cons] at ih ⊢
        rw [List.count_cons, if_neg (by exact fun h => hc (by simpa using h))]
        omega

/-- C6: the sort key of a well-formed name `{sequence}~{patient_id}`
is the string `{patient_id}.{sequence zero-padded to 6 digits}`, and
for equal patient IDs the keys order ascending by sequence:
`key("003~P1") < key("002~P1")` is false and
`key("002~P1") < key("003~P1")` is true under Python string
comparison. -/
theorem sort_key_format_and_order :
    (∀ seq pid : List Char, '~' ∉ seq → '~' ∉ pid →
      _patient_directory_sort_key (String.mk (seq ++ '~' :: pid))
        = .ok (String.mk pid ++ "." ++ String.mk (zfillChars seq 6)))
    ∧ _patient_directory_sort_key "003~P1" = .ok "P1.000003"
    ∧ _patient_directory_sort_key "002~P1" = .ok "P1.000002"
    ∧ ¬ strLt "P1.000003" "P1.000002"
    ∧ strLt "P1.000002" "P1.000003" := by
  refine ⟨?_, by decide, by decide, by decide, by decide⟩
  intro seq pid hs hp
  unfold _patient_directory_sort_key
  have hdata : (String.mk (seq ++ '~' :: pid)).data = seq ++ '~' :: pid := rfl
  rw [hdata, splitOnTilde_append seq pid hs, splitOnTilde_no_tilde pid hp]

/-- C6 witness: the general format statement instantiated at
`"003~P1"`, together with the concrete ordering facts. -/
theorem sort_key_format_and_order_witness :
    _patient_directory_sort_key
        (String.mk (['0', '0', '3'] ++ '~' :: ['P', '1']))
      = .ok (String.mk ['P', '1'] ++ "." ++ String.mk (zfillChars ['0', '0', '3'] 6))
    ∧ strLt "P1.000002" "P1.000003" :=
  ⟨sort_key_format_and_order.1 ['0', '0', '3'] ['P', '1']
    (by decide) (by decide),
   sort_key_format_and_order.2.2.2.2⟩

/-- C7: the sort key computation succeeds exactly on the names with
exactly one `~` separator; any other name raises the unpacking
`ValueError`. -/
theorem sort_key_ok_iff_one_tilde (name : String) :
    (∃ key, _patient_directory_sort_key name = .ok key)
      ↔ name.data.count '~' = 1 := by
  have hlen := splitOnTilde_length name.data
  constructor
  · rintro ⟨key, hk⟩
    unfold _patient_directory_sort_key at hk
    rcases hsplit : splitOnTilde name.data with _ | ⟨a, _ | ⟨b, _ | ⟨c, cs⟩⟩⟩ <;>
      rw [hsplit] at hk <;> simp at hk
    rw [hsplit] at hlen
    simp at hlen
    omega
  · intro hc
    rw [hc] at hlen
    rcases hsplit : splitOnTilde name.data with _ | ⟨a, _ | ⟨b, _ | ⟨c, cs⟩⟩⟩ <;>
      rw [hsplit] at hlen <;> simp at hlen
    refine ⟨String.mk b ++ "." ++ String.mk (zfillChars a 6), ?_⟩
    unfold _patient_directory_sort_key
    rw [hsplit]

/-- C7 witness: the well-formed name `"003~P1"` (one tilde) yields a
key, and the malformed name `"noTilde"` yields none. -/
theorem sort_key_ok_iff_one_tilde_witness :
    (∃ key, _patient_directory_sort_key "003~P1" = .ok key)
    ∧ ¬ (∃ key, _patient_directory_sort_key "noTilde" = .ok key) :=
  ⟨(sort_key_ok_iff_one_tilde "003~P1").mpr (by decide),
   fun h => by
    have := (sort_key_ok_iff_one_tilde "noTilde").mp h
    simp at this⟩

/-- `foldl min` is a member of seed-plus-list and a lower bound for
both. -/
lemma foldl_min_spec (l : List ℚ) :
    ∀ a : ℚ, (l.foldl min a = a ∨ l.foldl min a ∈ l)
      ∧ l.foldl min a ≤ a ∧ ∀ x ∈ l, l.foldl min a ≤ x := by
  induction l with
  | nil => intro a; exact ⟨Or.inl rfl, le_refl a, by simp⟩
  | cons x xs ih =>
    intro a
    obtain ⟨hmem, hseed, hbound⟩ := ih (min a x)
    have hfold : (x :: xs).foldl min a = xs.foldl min (min a x) := rfl
    refine ⟨?_, ?_, ?_⟩
    · rw [hfold]
      rcases hmem with h | h
      · rcases min_choice a x with h' | h'
        · exact Or.inl (h.trans h')
        · exact Or.inr (by rw [h, h']; exact List.mem_cons_self x xs)
      · exact Or.inr (List.mem_cons_of_mem x h)
    · rw [hfold]
      exact le_trans hseed (min_le_left a x)
    · intro y hy
      rw [hfold]
      rcases List.mem_cons.mp hy with rfl | hy'
      · exact le_trans hseed (min_le_right a y)
      · exact hbound y hy'

/-- A successful `np.min` returns a member of the list that bounds
every element from below. -/
lemma npMin_spec (l : List ℚ) (w : ℚ) (h : npMin l = .ok w) :
    w ∈ l ∧ ∀ x ∈ l, w ≤ x := by
  cases l with
  | nil => cases h
  | cons x xs =>
    have hw : w = xs.foldl min x := by
      simpa [npMin] using h.symm
    obtain ⟨hmem, hseed, hbound⟩ := foldl_min_spec xs x
    subst hw
    refine ⟨?_, ?_⟩
    · rcases hmem with h' | h'
      · rw [h']; exact List.mem_cons_self x xs
      · exact List.mem_cons_of_mem x h'
    · intro y hy
      rcases List.mem_cons.mp hy with rfl | hy'
      · exact hseed
      · exact hbound y hy'

/-- A directory with at least one gathered path always produces a
staleness value. -/
lemma dirWeeks_ok_of_gather_ne (fs : FS) (now : ℚ) (d : Path)
    (h : gatherPaths fs d ≠ []) : ∃ w, dirWeeks fs now d = .ok w := by
  unfold dirWeeks
  cases hg : gatherPaths fs d with
  | nil => exact absurd hg h
  | cons p ps => exact ⟨_, rfl⟩

/-- A directory with no gathered paths raises the numpy zero-size
reduction error. -/
lemma dirWeeks_error_of_gather_nil (fs : FS) (now : ℚ) (d : Path)
    (h : gatherPaths fs d = []) :
    dirWeeks fs now d
      = .error "ValueError: zero-size array to reduction operation minimum which has no identity" := by
  unfold dirWeeks
  rw [h]
  rfl

/-- The staleness loop aborts with the numpy error as soon as any
directory of the batch has no gathered paths. -/
lemma weeksSinceTouchedLoop_error_of_empty (fs : FS) (now : ℚ) :
    ∀ (dirs : List Path) (acc : List (Path × ℚ)) (d : Path),
      d ∈ dirs → gatherPaths fs d = [] →
      weeksSinceTouchedLoop fs now dirs acc
        = .error "ValueError: zero-size array to reduction operation minimum which has no identity" := by
  intro dirs
  induction dirs with
  | nil => intro acc d h; cases h
  | cons hd tl ih =>
    intro acc d hmem hempty
    unfold weeksSinceTouchedLoop
    by_cases hg : gatherPaths fs hd = []
    · rw [dirWeeks_error_of_gather_nil fs now hd hg]
    · obtain ⟨w, hw⟩ := dirWeeks_ok_of_gather_ne fs now hd hg
      rw [hw]
      rcases List.mem_cons.mp hmem with rfl | hmem'
      · exact absurd hempty hg
      · exact ih (dictInsert hd w acc) d hmem' hempty

/-- C3: when some patient directory of the batch has zero gathered
paths (no direct children and no `plan` children), the staleness
computation fails explicitly with the numpy zero-size-reduction
`ValueError` for that directory instead of recording a sentinel
value. -/
theorem weeks_since_touched_empty_dir_errors (fs : FS) (now : ℚ)
    (dirs : List Path) (d : Path) (hmem : d ∈ dirs)
    (hempty : gatherPaths fs d = []) :
    _weeks_since_touched fs now dirs
      = .error "ValueError: zero-size array to reduction operation minimum which has no identity" :=
  weeksSinceTouchedLoop_error_of_empty fs now dirs [] d hmem hempty

/-- C3 witness: in the all-empty filesystem the staleness computation
over the single directory `clinic/001~A` errors. -/
theorem weeks_since_touched_empty_dir_errors_witness :
    _weeks_since_touched fsEmpty 0 [["clinic", "001~A"]]
      = .error "ValueError: zero-size array to reduction operation minimum which has no identity" :=
  weeks_since_touched_empty_dir_errors fsEmpty 0 [["clinic", "001~A"]]
    ["clinic", "001~A"] (List.mem_singleton.mpr rfl) rfl

/-- Every entry of `dictInsert k v l` is either `(k, v)` or an entry
of `l`. -/
lemma mem_dictInsert (k : Path) (v : ℚ) :
    ∀ (l : List (Path × ℚ)) (e : Path × ℚ),
      e ∈ dictInsert k v l → e = (k, v) ∨ e ∈ l := by
  intro l
  induction l with
  | nil =>
    intro e he
    simp only [dictInsert, List.mem_singleton] at he
    exact Or.inl he
  | cons hd tl ih =>
    obtain ⟨k', v'⟩ := hd
    intro e he
    unfold dictInsert at he
    split_ifs at he with hk
    · rcases List.mem_cons.mp he with rfl | he'
      · exact Or.inl (by rw [hk])
      · exact Or.inr (List.mem_cons_of_mem _ he')
    · rcases List.mem_cons.mp he with rfl | he'
      · exact Or.inr (List.mem_cons_self _ _)
      · rcases ih e he' with h | h
        · exact Or.inl h
        · exact Or.inr (List.mem_cons_of_mem _ h)

/-- Invariant of the staleness loop: every recorded entry was either
already in the accumulator or is the staleness of a processed
directory. -/
lemma weeksSinceTouchedLoop_ok_mem (fs : FS) (now : ℚ) :
    ∀ (dirs : List Path) (acc m : List (Path × ℚ)),
      weeksSinceTouchedLoop fs now dirs acc = .ok m →
      ∀ e : Path × ℚ, e ∈ m →
        e ∈ acc ∨ (e.1 ∈ dirs ∧ dirWeeks fs now e.1 = .ok e.2) := by
  intro dirs
  induction dirs with
  | nil =>
    intro acc m h e hm
    unfold weeksSinceTouchedLoop at h
    cases h
    exact Or.inl hm
  | cons d tl ih =>
    intro acc m h e hm
    unfold weeksSinceTouchedLoop at h
    cases hw : dirWeeks fs now d with
    | error err => rw [hw] at h; cases h
    | ok w =>
      rw [hw] at h
      rcases ih (dictInsert d w acc) m h e hm with hacc | ⟨hmem, hok⟩
      · rcases mem_dictInsert d w acc e hacc with rfl | h'
        · exact Or.inr ⟨List.mem_cons_self d tl, hw⟩
        · exact Or.inl h'
      · exact Or.inr ⟨List.mem_cons_of_mem d hmem, hok⟩

/-- C4: every value of a successful staleness computation is the
minimum, over the directory's direct children plus the children of its
`plan` subdirectory, of `(now - modified_time) / (7 * 86400)` (a
member of that list bounding every element from below); an absent
`plan` subdirectory contributes no paths and causes no failure; a
directory whose children were modified 1, 3 and 10 weeks ago has
staleness 1. -/
theorem weeks_since_touched_min_spec (fs : FS) (now : ℚ) (dirs : List Path)
    (m : List (Path × ℚ)) (hm : _weeks_since_touched fs now dirs = .ok m) :
    (∀ d w, (d, w) ∈ m →
      w ∈ ((gatherPaths fs d).map fs.mtime).map
          (fun modified => (now - modified) / (60 * 60 * 24 * 7))
      ∧ ∀ x ∈ ((gatherPaths fs d).map fs.mtime).map
          (fun modified => (now - modified) / (60 * 60 * 24 * 7)), w ≤ x)
    ∧ (∀ (fs' : FS) (d' : Path), fs'.children (d' ++ ["plan"]) = [] →
        gatherPaths fs' d' = fs'.children d')
    ∧ (∀ (fs' : FS) (now' : ℚ) (d' : Path), fs'.children d' ≠ [] →
        ∃ w, dirWeeks fs' now' d' = .ok w)
    ∧ dirWeeks fsThreeChildren 12096000 ["clinic", "001~A"] = .ok 1 := by
  refine ⟨?_, ?_, ?_, ?_⟩
  · intro d w hmem
    rcases weeksSinceTouchedLoop_ok_mem fs now dirs [] m hm (d, w) hmem with
      habs | ⟨_, hok⟩
    · cases habs
    · exact npMin_spec _ w hok
  · intro fs' d' hplan
    unfold gatherPaths
    rw [hplan, List.append_nil]
  · intro fs' now' d' hne
    apply dirWeeks_ok_of_gather_ne
    unfold gatherPaths
    intro h
    exact hne (List.append_eq_nil.mp h).1
  · norm_num +decide [dirWeeks, gatherPaths, fsThreeChildren, npMin, min_def]

/-- C4 witness: the minimum-characterisation applied to the concrete
three-children clinic, whose staleness mapping is
`{clinic/001~A ↦ 1}`: the value `1` is a gathered weeks-ago value of
that directory, and the directory by itself computes to `1`. -/
theorem weeks_since_touched_min_spec_witness :
    (1 : ℚ) ∈ ((gatherPaths fsThreeChildren ["clinic", "001~A"]).map
        fsThreeChildren.mtime).map
        (fun modified => ((12096000 : ℚ) - modified) / (60 * 60 * 24 * 7))
    ∧ dirWeeks fsThreeChildren 12096000 ["clinic", "001~A"] = .ok 1 := by
  have h := weeks_since_touched_min_spec fsThreeChildren 12096000
    [["clinic", "001~A"]] [(["clinic", "001~A"], 1)]
    (by norm_num +decide [_weeks_since_touched, weeksSinceTouchedLoop, dirWeeks,
      gatherPaths, fsThreeChildren, npMin, dictInsert, min_def])
  exact ⟨(h.1 ["clinic", "001~A"] 1 (List.mem_singleton.mpr rfl)).1, h.2.2.2⟩

/-- C5 counterexample: staleness values are not non-negative for every
set of modification timestamps: with clock time `0` and a single child
modified one week in the future (timestamp `604800`), the recorded
staleness is `-1 < 0`. -/
theorem staleness_future_mtime_negative :
    _weeks_since_touched fsFuture 0 [["clinic", "001~A"]]
      = .ok [(["clinic", "001~A"], -1)]
    ∧ ((-1 : ℚ) < 0) := by
  constructor
  · norm_num +decide [_weeks_since_touched, weeksSinceTouchedLoop, dirWeeks,
      gatherPaths, fsFuture, npMin, dictInsert, min_def]
  · norm_num

/-- C5 (amended): every value recorded in the staleness mapping is
non-negative, provided no gathered path has a modification timestamp
later than the clock time `now`; a future timestamp yields a negative
value. -/
theorem staleness_nonneg_of_mtime_le_now (fs : FS) (now : ℚ)
    (dirs : List Path) (m : List (Path × ℚ))
    (hts : ∀ d ∈ dirs, ∀ p ∈ gatherPaths fs d, fs.mtime p ≤ now)
    (hm : _weeks_since_touched fs now dirs = .ok m) :
    ∀ d w, (d, w) ∈ m → 0 ≤ w := by
  intro d w hmem
  rcases weeksSinceTouchedLoop_ok_mem fs now dirs [] m hm (d, w) hmem with
    habs | ⟨hd, hok⟩
  · cases habs
  · obtain ⟨hwin, _⟩ := npMin_spec _ w hok
    simp only [List.map_map, List.mem_map, Function.comp] at hwin
    obtain ⟨p, hp, hpw⟩ := hwin
    have hle := hts d hd p hp
    rw [← hpw]
    apply div_nonneg (by linarith) (by norm_num)

/-- C5 witness: the amended non-negativity applied to the concrete
three-children clinic, whose timestamps all precede the clock time. -/
theorem staleness_nonneg_of_mtime_le_now_witness : (0 : ℚ) ≤ 1 :=
  staleness_nonneg_of_mtime_le_now fsThreeChildren 12096000
    [["clinic", "001~A"]] [(["clinic", "001~A"], 1)]
    (by
      intro d hd p hp
      rcases List.mem_singleton.mp hd with rfl
      simp only [gatherPaths, fsThreeChildren] at hp ⊢
      norm_num at hp
      rcases hp with rfl | rfl | rfl <;> norm_num +decide)
    (by norm_num +decide [_weeks_since_touched, weeksSinceTouchedLoop, dirWeeks,
      gatherPaths, fsThreeChildren, npMin, dictInsert, min_def])
    ["clinic", "001~A"] 1 (List.mem_singleton.mpr rfl)

/-- Inserting a fresh key into a dict appends the new entry at the
end. -/
lemma dictInsert_append (k : Path) (v : ℚ) :
    ∀ l : List (Path × ℚ), k ∉ l.map Prod.fst →
      dictInsert k v l = l ++ [(k, v)] := by
  intro l
  induction l with
  | nil => intro _; rfl
  | cons hd tl ih =>
    obtain ⟨k', v'⟩ := hd
    intro h
    simp only [List.map_cons, List.mem_cons] at h
    push_neg at h
    unfold dictInsert
    rw [if_neg (fun hk => h.1 hk.symm), ih h.2]
    rfl

/-- The staleness loop succeeds on pairwise-distinct directories that
all gather at least one path, and records them as keys in input order
after the accumulator's keys. -/
lemma weeksSinceTouchedLoop_ok_keys (fs : FS) (now : ℚ) :
    ∀ (dirs : List Path) (acc : List (Path × ℚ)),
      dirs.Nodup → (∀ d ∈ dirs, gatherPaths fs d ≠ []) →
      (∀ d ∈ dirs, d ∉ acc.map Prod.fst) →
      ∃ m, weeksSinceTouchedLoop fs now dirs acc = .ok m
        ∧ m.map Prod.fst = acc.map Prod.fst ++ dirs := by
  intro dirs
  induction dirs with
  | nil =>
    intro acc _ _ _
    exact ⟨acc, rfl, by simp⟩
  | cons d tl ih =>
    intro acc hnd hne hfresh
    obtain ⟨hd_tl, htl_nd⟩ := List.nodup_cons.mp hnd
    obtain ⟨w, hw⟩ := dirWeeks_ok_of_gather_ne fs now d
      (hne d (List.mem_cons_self d tl))
    have hfresh_d : d ∉ acc.map Prod.fst := hfresh d (List.mem_cons_self d tl)
    have hkeys : (dictInsert d w acc).map Prod.fst = acc.map Prod.fst ++ [d] := by
      rw [dictInsert_append d w acc hfresh_d]
      simp
    obtain ⟨m, hm, hmkeys⟩ := ih (dictInsert d w acc) htl_nd
      (fun d' hd' => hne d' (List.mem_cons_of_mem d hd'))
      (fun d' hd' => by
        rw [hkeys]
        simp only [List.mem_append, List.mem_singleton]
        rintro (h | rfl)
        · exact hfresh d' (List.mem_cons_of_mem d hd') h
        · exact hd_tl hd')
    refine ⟨m, ?_, ?_⟩
    · unfold weeksSinceTouchedLoop
      rw [hw]
      exact hm
    · rw [hmkeys, hkeys]
      simp

/-- C10: when the input directories are pairwise distinct and each
gathers at least one path, the staleness computation succeeds and its
mapping has exactly the input directories as keys, in input order
(no omission, no extra key). -/
theorem weeks_since_touched_keys (fs : FS) (now : ℚ) (dirs : List Path)
    (hnd : dirs.Nodup) (hne : ∀ d ∈ dirs, gatherPaths fs d ≠ []) :
    ∃ m, _weeks_since_touched fs now dirs = .ok m
      ∧ m.map Prod.fst = dirs := by
  obtain ⟨m, hm, hkeys⟩ :=
    weeksSinceTouchedLoop_ok_keys fs now dirs [] hnd hne (by simp)
  exact ⟨m, hm, by simpa using hkeys⟩

/-- C10 witness: the key-set invariant applied to the concrete
three-children clinic with its single patient directory. -/
theorem weeks_since_touched_keys_witness :
    ∃ m, _weeks_since_touched fsThreeChildren 12096000 [["clinic", "001~A"]]
        = .ok m
      ∧ m.map Prod.fst = [["clinic", "001~A"]] :=
  weeks_since_touched_keys fsThreeChildren 12096000 [["clinic", "001~A"]]
    (List.nodup_singleton _)
    (fun d hd => by
      rcases List.mem_singleton.mp hd with rfl
      decide)

/-- C1 (the claim the code violates): with a single selected source
directory that still exists, a final destination that does not yet
exist, and an empty holding directory, all three move preconditions
hold, yet `allow_move_button` evaluates to `false` — the assignments
`allow_move_button = False` at source lines 149 and 157 sit outside
their `if` statements, so any non-empty selection disables the move
regardless of the checks. -/
theorem move_gate_blocked_despite_preconditions :
    movePreconditionsHold exOnlySource [["clinic", "001~A"]] ["dest"] [] = true
    ∧ allowMoveButton exOnlySource [["clinic", "001~A"]] ["dest"] [] = false := by
  decide

/-- The verification loop collects exactly the still-existing sources
and the missing destinations, in order. -/
lemma testMovesLoop_eq (ex : Path → Bool) :
    ∀ pairs : List (Path × Path),
      testMovesLoop ex pairs
        = ((pairs.map Prod.fst).filter ex,
           (pairs.map Prod.snd).filter (fun t => !(ex t))) := by
  intro pairs
  induction pairs with
  | nil => rfl
  | cons hd tl ih =>
    obtain ⟨f, t⟩ := hd
    simp only [testMovesLoop, ih, List.map_cons, List.filter_cons]

/-- C8: the verification action flags, among the originally selected
directories, exactly those still existing at their source path as
"left behind" and exactly those whose `archive_root/name` destination
is missing as "not found in archive", and reports overall success iff
no directory fails either check. -/
theorem test_moves_spec (ex : Path → Bool) (dirs : List Path)
    (destination : Path) :
    (testMoves ex dirs destination).1 = dirs.filter ex
    ∧ (testMoves ex dirs destination).2.1
        = (testingFinalLocations destination dirs).filter (fun f => !(ex f))
    ∧ ((testMoves ex dirs destination).2.2 = true ↔
        ∀ d ∈ dirs, ex d = false ∧ ex (destination ++ [Path.name d]) = true) := by
  have hlen : dirs.length = (testingFinalLocations destination dirs).length := by
    simp [testingFinalLocations]
  have h1 : (dirs.zip (testingFinalLocations destination dirs)).map Prod.fst
      = dirs := List.map_fst_zip _ _ (le_of_eq hlen)
  have h2 : (dirs.zip (testingFinalLocations destination dirs)).map Prod.snd
      = testingFinalLocations destination dirs :=
    List.map_snd_zip _ _ (ge_of_eq hlen)
  unfold testMoves
  rw [testMovesLoop_eq, h1, h2]
  refine ⟨rfl, rfl, ?_⟩
  simp only [Bool.and_eq_true, List.isEmpty_iff, List.filter_eq_nil_iff,
    testingFinalLocations, List.mem_map, Bool.not_eq_true', not_exists,
    Bool.not_eq_false]
  constructor
  · rintro ⟨hsrc, hdst⟩ d hd
    exact ⟨Bool.not_eq_true _ |>.mp (hsrc d hd),
      hdst (destination ++ [Path.name d]) ⟨Path.name d, ⟨d, hd, rfl⟩, rfl⟩⟩
  · rintro h
    refine ⟨fun d hd => by simp [(h d hd).1], ?_⟩
    rintro f ⟨n, ⟨d, hd, rfl⟩, rfl⟩
    exact (h d hd).2

/-- C8 witness: after the directory `005~ABC` was successfully moved
(source gone, `dest/005~ABC` present), the verification reports
overall success. -/
theorem test_moves_spec_witness :
    (testMoves exArchived [["clinic", "005~ABC"]] ["dest"]).2.2 = true :=
  (test_moves_spec exArchived [["clinic", "005~ABC"]] ["dest"]).2.2.mpr
    (by decide)

end MonacoArchive
